import Mathlib

/-!
Verification development for the `ThreadPool` work-stealing scheduler
(`threadpool.hpp`).  The public surface is declared in `threadpool.hpp`;
the two `schedule_after` overloads are defined there as templates and are
embedded directly.  The scheduler internals (`threadpool.cpp`) are not part
of the available sources, so those operations are modelled from the design
specification, as marked in each doc comment.
-/

namespace ThreadPool

/-! ## Time and `std::chrono::duration_cast`

A `std::chrono::duration<Rep, Period>` value is embedded as an integer
count `c` together with the compile-time ratio `num / den` of its period
(in seconds).  `duration_cast` to a target period `sn / sd` computes
`c * (num/den) / (sn/sd)` in exact integer arithmetic and truncates the
quotient toward zero, which is `Int.tdiv`: this is exactly the C++
computation `count * CF::num / CF::den` with integral division. -/

/-- Embedding of `std::chrono::duration_cast`: convert a count `c` of ticks
of period `num / den` seconds into whole ticks of period `sn / sd` seconds,
truncating toward zero. -/
def duration_cast (c : ℤ) (num den sn sd : ℕ) : ℤ :=
  (c * num * sd).tdiv (den * sn)

/-! ## Per-worker bounded ring queue

Modelled from the spec: the fixed-capacity power-of-two ring buffer owned
by each worker (`threadpool.cpp` is not among the sources).  Tasks are
identified by ghost labels (`Nat`); the spec states a task carries no
identity of its own.  The 64-bit head and tail counters are embedded as
`Nat` with `head ≤ tail` maintained by the reachable states. -/

/-- Modelled from the spec: log2 of the per-worker queue capacity, the
build-time constant `kLog2Modulus` of `threadpool.cpp` (default ≈256
slots). -/
def kLog2Modulus : ℕ := 8

/-- Capacity `C` of a worker ring: a power of two. -/
def modulus : ℕ := 2 ^ kLog2Modulus

/-- Modelled from the spec: the per-worker ring of task slots, indexed by
monotone head and tail counters; slot `i` of the buffer holds the task
label published at index `i mod C`. -/
structure RingQueue where
  head : ℕ
  tail : ℕ
  slots : List ℕ
deriving DecidableEq

/-- The empty ring: both counters zero, all slots blank. -/
def RingQueue.empty : RingQueue :=
  ⟨0, 0, List.replicate modulus 0⟩

/-- Number of tasks currently held: `tail - head`. -/
def RingQueue.size (r : RingQueue) : ℕ := r.tail - r.head

/-- Modelled from the spec: `push(task)`, called only by the owner.
Succeeds iff `tail - head < C - 1`, publishing the task into slot
`tail mod C` and advancing tail; returns `none` when full. -/
def RingQueue.push (r : RingQueue) (t : ℕ) : Option RingQueue :=
  if r.tail - r.head < modulus - 1 then
    some ⟨r.head, r.tail + 1, r.slots.set (r.tail % modulus) t⟩
  else
    none

/-- Modelled from the spec: `pop_local()`, called only by the owner, LIFO:
takes the task at the tail end when the ring is nonempty. -/
def RingQueue.pop_local (r : RingQueue) : Option (RingQueue × ℕ) :=
  if r.head < r.tail then
    some (⟨r.head, r.tail - 1, r.slots⟩, r.slots.getD ((r.tail - 1) % modulus) 0)
  else
    none

/-- Modelled from the spec: `steal()`, called by a foreign worker, FIFO:
takes the task at the head end when the ring is nonempty. -/
def RingQueue.steal (r : RingQueue) : Option (RingQueue × ℕ) :=
  if r.head < r.tail then
    some (⟨r.head + 1, r.tail, r.slots⟩, r.slots.getD (r.head % modulus) 0)
  else
    none

/-- Ring states reachable from the empty ring by owner pushes, owner pops
and foreign steals. -/
inductive RingReach : RingQueue → Prop where
  | init : RingReach RingQueue.empty
  | push (r r' : RingQueue) (t : ℕ) :
      RingReach r → r.push t = some r' → RingReach r'
  | pop (r r' : RingQueue) (t : ℕ) :
      RingReach r → r.pop_local = some (r', t) → RingReach r'
  | steal (r r' : RingQueue) (t : ℕ) :
      RingReach r → r.steal = some (r', t) → RingReach r'

/-- Maximum number of tasks a worker can keep locally: the constant
`C - 1` returned by `ThreadPool::get_worker_capacity` (one slot is
reserved to distinguish full from empty).  Modelled from the spec. -/
def get_worker_capacity : ℕ := modulus - 1

/-- Modelled from the spec: the fast scheduling path of a worker thread.
The worker pushes the task onto its own ring; when the ring is full the
task is silently spilled to the central queue and the call still succeeds
for the caller. -/
def schedule_from_worker (r : RingQueue) (central : List ℕ) (t : ℕ) :
    RingQueue × List ℕ :=
  match r.push t with
  | some r' => (r', central)
  | none => (r, central ++ [t])

/-- Iterated owner pushes into a fresh ring, realizing any occupancy up to
the capacity. -/
def push_n : ℕ → RingQueue
  | 0 => RingQueue.empty
  | n + 1 =>
    match (push_n n).push 0 with
    | some r => r
    | none => push_n n

/-! ## Pool scheduler state machine

Modelled from the spec: the pool controller of `threadpool.cpp` is not
among the sources, so its data model is embedded from the specification
text.  Tasks are ghost-labelled with consecutive naturals (`nextId`).  A
task lives in exactly one container: some worker local queue, the central
FIFO, or the delay heap; it is dequeued once for execution (entering the
`invoked` log) or is discarded at pool teardown (entering `discarded`).
For the lifecycle claims only occupancy matters, so local queues are
embedded as lists with the LIFO end at the list head (owner push and
owner pop act there, foreign steal acts at the last element). -/

/-- Modelled from the spec: the controller state — per-worker local
queues, the central queue, the delay heap of (deadline, task) pairs, the
log of tasks handed to execution, the log of tasks discarded at teardown,
the halt flag, the stop flag, and the next fresh ghost label. -/
structure PoolState where
  locals : List (List ℕ)
  central : List ℕ
  delayed : List (ℤ × ℕ)
  invoked : List ℕ
  discarded : List ℕ
  halted : Bool
  stopped : Bool
  nextId : ℕ

/-- Fresh pool with `n` workers, all queues empty. -/
def initState (n : ℕ) : PoolState :=
  ⟨List.replicate n [], [], [], [], [], false, false, 0⟩

/-- Modelled from the spec: `submit_central(task)` — append the new task
to the central FIFO. -/
def submit_central (s : PoolState) : PoolState :=
  { s with central := s.central ++ [s.nextId], nextId := s.nextId + 1 }

/-- Modelled from the spec: the fast path of `schedule` and
`schedule_subtask` from worker `i` — push the new task at the LIFO end of
the local queue of worker `i` (no effect if no such worker exists). -/
def submit_local (s : PoolState) (i : ℕ) : PoolState :=
  match s.locals[i]? with
  | some q => { s with locals := s.locals.set i (s.nextId :: q),
                       nextId := s.nextId + 1 }
  | none => s

/-- Modelled from the spec: `submit_delayed(deadline, task)` — insert the
new task with its deadline into the delay heap. -/
def submit_delayed (s : PoolState) (deadline : ℤ) : PoolState :=
  { s with delayed := s.delayed ++ [(deadline, s.nextId)],
           nextId := s.nextId + 1 }

/-- Modelled from the spec: a worker pops the LIFO end of its local queue
and invokes the task (no effect if the queue is empty). -/
def invoke_local (s : PoolState) (i : ℕ) : PoolState :=
  match s.locals[i]? with
  | some (t :: rest) =>
      { s with locals := s.locals.set i rest, invoked := s.invoked ++ [t] }
  | _ => s

/-- Modelled from the spec: a foreign worker steals the FIFO end (the
oldest entry) of the local queue of worker `i` and, on success,
immediately invokes the stolen task. -/
def steal_invoke (s : PoolState) (i : ℕ) : PoolState :=
  match s.locals[i]? with
  | some q =>
      match q.getLast? with
      | some t =>
          { s with locals := s.locals.set i q.dropLast,
                   invoked := s.invoked ++ [t] }
      | none => s
  | none => s

/-- Modelled from the spec: one task of `drain_central_into(local, n)` —
a worker with an empty local queue moves the head of the central FIFO
into its own local queue. -/
def drain_central_one (s : PoolState) (i : ℕ) : PoolState :=
  match s.central with
  | c :: rest =>
      match s.locals[i]? with
      | some q =>
          { s with central := rest, locals := s.locals.set i (c :: q) }
      | none => s
  | [] => s

/-- Modelled from the spec: `promote_due(now)` — pop every delay-heap
entry whose deadline has passed and append it to the central queue. -/
def promote_due (s : PoolState) (now : ℤ) : PoolState :=
  { s with
    central := s.central ++
      ((s.delayed.filter (fun e => decide (e.1 ≤ now))).map Prod.snd),
    delayed := s.delayed.filter (fun e => !decide (e.1 ≤ now)) }

/-- Modelled from the spec: `halt()` — set the halt-requested flag; queued
work is not touched. -/
def halt (s : PoolState) : PoolState := { s with halted := true }

/-- Modelled from the spec: the scheduling effect of `resume()` — clear
the halt-requested flag; queued work is not touched. -/
def resume (s : PoolState) : PoolState := { s with halted := false }

/-- Modelled from the spec: pool destruction — stop the workers and
discard, without invoking, every task still resident in any container. -/
def teardown (s : PoolState) : PoolState :=
  { s with stopped := true,
           locals := s.locals.map (fun _ => []),
           central := [],
           delayed := [],
           discarded := s.discarded ++ s.locals.flatten ++ s.central ++
                        s.delayed.map Prod.snd }

/-- Modelled from the spec: `schedule(task)` from a thread outside the
pool — the slow path, a central submit. -/
def schedule (s : PoolState) : PoolState := submit_central s

/-- Modelled from the spec: `sched_impl(delay, task)` of `threadpool.cpp`
— receives the delay already cast to `steady_clock::duration` ticks; a
non-positive delay degenerates to an immediate `schedule`, otherwise the
task enters the delay heap with deadline `now + delay` on the monotonic
clock. -/
def sched_impl (s : PoolState) (steadyNow delay : ℤ) : PoolState :=
  if delay ≤ 0 then schedule s else submit_delayed s (steadyNow + delay)

/-- Embedding of the duration overload `ThreadPool::schedule_after`
(header, lines 179–185): forwards
`duration_cast<steady_clock::duration>(rel_time)` to `sched_impl`.  The
relative time is a count `c` of ticks of period `num / den`; the
`steady_clock` period is `sn / sd`. -/
def schedule_after_dur (s : PoolState) (steadyNow : ℤ) (c : ℤ)
    (num den sn sd : ℕ) : PoolState :=
  sched_impl s steadyNow (duration_cast c num den sn sd)

/-- Embedding of the time-point overload `ThreadPool::schedule_after`
(header, lines 200–207): evaluates `Clock::now()` once and forwards
`duration_cast<steady_clock::duration>(time - Clock::now())` to
`sched_impl`.  Both time points are counts of the clock period
`num / den`. -/
def schedule_after_time (s : PoolState) (steadyNow : ℤ) (timeCount nowCount : ℤ)
    (num den sn sd : ℕ) : PoolState :=
  sched_impl s steadyNow (duration_cast (timeCount - nowCount) num den sn sd)

/-- Modelled from the spec: the atomic transitions of the scheduler.
Submissions are accepted whenever the pool is not being destroyed (in
particular while halted); tasks are handed to execution only while the
pool is neither halted nor stopping. -/
inductive Step : PoolState → PoolState → Prop where
  | submitC (s : PoolState) (hs : s.stopped = false) :
      Step s (submit_central s)
  | submitL (s : PoolState) (i : ℕ) (hs : s.stopped = false) :
      Step s (submit_local s i)
  | submitD (s : PoolState) (d : ℤ) (hs : s.stopped = false) :
      Step s (submit_delayed s d)
  | invokeL (s : PoolState) (i : ℕ) (hh : s.halted = false)
      (hs : s.stopped = false) : Step s (invoke_local s i)
  | stealI (s : PoolState) (i : ℕ) (hh : s.halted = false)
      (hs : s.stopped = false) : Step s (steal_invoke s i)
  | drainC (s : PoolState) (i : ℕ) (hh : s.halted = false)
      (hs : s.stopped = false) : Step s (drain_central_one s i)
  | promote (s : PoolState) (now : ℤ) (hs : s.stopped = false) :
      Step s (promote_due s now)
  | haltS (s : PoolState) (hs : s.stopped = false) : Step s (halt s)
  | resumeS (s : PoolState) (hs : s.stopped = false) : Step s (resume s)
  | stop (s : PoolState) (hs : s.stopped = false) : Step s (teardown s)

/-- Pool states reachable from a fresh pool. -/
inductive Reach : PoolState → Prop where
  | init (n : ℕ) : Reach (initState n)
  | step {s s' : PoolState} : Reach s → Step s s' → Reach s'

/-- Number of copies of task label `id` queued in any container. -/
def pendingCount (s : PoolState) (id : ℕ) : ℕ :=
  (s.locals.map (fun q => q.count id)).sum + s.central.count id +
    (s.delayed.map Prod.snd).count id

/-- Total number of copies of task label `id` across the whole task
lifecycle: queued, invoked or discarded. -/
def lifeCount (s : PoolState) (id : ℕ) : ℕ :=
  pendingCount s id + s.invoked.count id + s.discarded.count id

/-- The lifecycle invariant: each submitted task exists in exactly one
place, unsubmitted labels nowhere, and a stopped pool holds no queued
task. -/
def Inv (s : PoolState) : Prop :=
  (∀ id, id < s.nextId → lifeCount s id = 1) ∧
  (∀ id, s.nextId ≤ id → lifeCount s id = 0) ∧
  (s.stopped = true → ∀ id, pendingCount s id = 0)

/-- Task label `id` is queued somewhere in the pool. -/
def all_pending (s : PoolState) (id : ℕ) : Prop :=
  id ∈ s.central ∨ (∃ q ∈ s.locals, id ∈ q) ∨ id ∈ s.delayed.map Prod.snd

/-! ## The worker execution loop after a resume

Modelled from the spec: once the pool is running again, each worker pops
its local queue, and on empty local queues drains the central FIFO into a
local ring and continues.  The loop below is the sequential projection of
that behaviour: it performs `invoke_local` and `drain_central_one`
transitions until no queued task remains. -/

/-- Index of the first worker whose local queue is nonempty. -/
def find_work : List (List ℕ) → Option ℕ
  | [] => none
  | (_ :: _) :: _ => some 0
  | [] :: rest => (find_work rest).map (· + 1)

/-- Remaining scheduling effort: a central task costs a drain plus an
invocation, a local task one invocation. -/
def load (s : PoolState) : ℕ :=
  2 * s.central.length + (s.locals.map List.length).sum

/-- Fuelled worker loop: invoke a local task if one exists, otherwise
drain one central task into the first local queue. -/
def run_fuel : ℕ → PoolState → PoolState
  | 0, s => s
  | fuel + 1, s =>
    match find_work s.locals with
    | some i => run_fuel fuel (invoke_local s i)
    | none =>
      match s.central with
      | [] => s
      | _ :: _ => run_fuel fuel (drain_central_one s 0)

/-- Latest deadline currently in the delay heap. -/
def max_deadline (s : PoolState) : ℤ :=
  (s.delayed.map Prod.fst).foldr max 0

/-- Run the pool to quiescence: promote every delayed task (time having
passed its deadline) and then execute the worker loop until all queues are
empty. -/
def flush (s : PoolState) : PoolState :=
  run_fuel (load (promote_due s (max_deadline s)))
    (promote_due s (max_deadline s))

/-! ## Construction, thread starts, and the error surface

Modelled from the spec: the constructor and `resume()` of
`threadpool.cpp` are not among the sources.  Thread creation may fail; the
outcome of each attempt is an oracle `List Bool`.  A `std::system_error`
escapes if and only if not even one worker thread could be ensured; with
a partial start the pool is usable and `get_concurrency()` reports the
workers actually started. -/

/-- Modelled from the spec: the fatal error surfaced on a start failure
(`std::system_error`). -/
structure SystemError where
  code : ℕ
deriving DecidableEq

/-- Modelled from the spec: the user-visible pool handle — the number of
worker threads actually started and the allocated worker capacity. -/
structure PoolHandle where
  concurrency : ℕ
  capacity : ℕ
deriving DecidableEq

/-- Modelled from the spec: a `worker_capacity` of zero selects a
positive, implementation-defined number of workers. -/
def effective_capacity (worker_capacity default_concurrency : ℕ) : ℕ :=
  if worker_capacity = 0 then default_concurrency else worker_capacity

/-- Number of successful thread starts among `cap` attempts with the
given outcome oracle. -/
def started_count (cap : ℕ) (starts : List Bool) : ℕ :=
  ((starts.take cap).filter (fun b => b)).length

/-- Modelled from the spec: `ThreadPool::ThreadPool(worker_capacity)` —
attempt to start up to the effective capacity of workers; raise
`std::system_error` iff not even one thread started, otherwise yield a
usable pool whose `get_concurrency()` is the started count. -/
def mk_threadpool (worker_capacity default_concurrency : ℕ)
    (starts : List Bool) : Except SystemError PoolHandle :=
  let cap := effective_capacity worker_capacity default_concurrency
  let n := started_count cap starts
  if n = 0 then .error ⟨1⟩ else .ok ⟨n, cap⟩

/-- Modelled from the spec: the thread-reviving effect of
`ThreadPool::resume()` — attempt to restart the workers that are not
running; raise `std::system_error` iff it could not ensure at least one
living thread. -/
def resume_restart (p : PoolHandle) (restarts : List Bool) :
    Except SystemError PoolHandle :=
  let n := p.concurrency + started_count (p.capacity - p.concurrency) restarts
  if n = 0 then .error ⟨1⟩ else .ok ⟨n, p.capacity⟩

/-- Modelled from the spec: every user operation other than construction
and `resume`. -/
inductive PoolOp where
  | opSchedule
  | opScheduleSubtask (i : ℕ)
  | opScheduleAfter (steadyNow delay : ℤ)
  | opHalt
  | opResume

/-- Modelled from the spec: running any non-constructor, non-resume
operation; all failures inside the scheduler are absorbed, so the result
is always `Except.ok`. -/
def run_op (op : PoolOp) (s : PoolState) : Except SystemError PoolState :=
  match op with
  | .opSchedule => .ok (schedule s)
  | .opScheduleSubtask i => .ok (submit_local s i)
  | .opScheduleAfter steadyNow delay => .ok (sched_impl s steadyNow delay)
  | .opHalt => .ok (halt s)
  | .opResume => .ok (resume s)

/-! ## Idleness observation

Modelled from the spec: `ThreadPool::is_idle` observes the worker
statuses and the shared queues. -/

/-- Modelled from the spec: the execution state of one worker thread. -/
inductive WorkerStatus where
  | running
  | stealing
  | parked
  | haltedW
deriving DecidableEq

/-- Modelled from the spec: the instantaneous observation `is_idle`
reads — every worker status, the central queue and the delay heap. -/
structure PoolObs where
  workers : List WorkerStatus
  centralQ : List ℕ
  delayedQ : List (ℤ × ℕ)
deriving DecidableEq

/-- Modelled from the spec: `ThreadPool::is_idle()` — true iff every
worker is parked and the central queue and the delay heap are empty. -/
def is_idle (p : PoolObs) : Bool :=
  p.workers.all (fun w => w == .parked) && p.centralQ.isEmpty &&
    p.delayedQ.isEmpty

/-! ## Concrete states used to instantiate the universal claims -/

/-- A ring at exactly full occupancy `C - 1`. -/
def fullRingWit : RingQueue := ⟨0, modulus - 1, List.replicate modulus 0⟩

/-- A small running pool: one worker holding task 0, task 1 in the
central queue, task 2 delayed until tick 5, next fresh label 3. -/
def witPool : PoolState := ⟨[[0]], [1], [(5, 2)], [], [], false, false, 3⟩

/-- Trace state: fresh single-worker pool. -/
def traceA0 : PoolState := initState 1

/-- Trace state: one task submitted centrally. -/
def traceA1 : PoolState := submit_central traceA0

/-- Trace state: the task drained into the local queue of worker 0. -/
def traceA2 : PoolState := drain_central_one traceA1 0

/-- Trace state: worker 0 invoked the task. -/
def traceA3 : PoolState := invoke_local traceA2 0

/-- Trace state: a second task submitted centrally. -/
def traceA4 : PoolState := submit_central traceA3

/-- Trace state: the pool destroyed; the queued task is discarded. -/
def traceA5 : PoolState := teardown traceA4

/-! ## Helper lemmas about the ring queue -/

theorem push_isSome_iff (r : RingQueue) (t : ℕ) :
    ((r.push t).isSome = true) ↔ r.tail - r.head < modulus - 1 := by
  unfold RingQueue.push
  split <;> simp_all

theorem ringReach_bounds {r : RingQueue} (h : RingReach r) :
    r.head ≤ r.tail ∧ r.tail - r.head ≤ modulus - 1 := by
  induction h with
  | init =>
      refine ⟨Nat.le_refl 0, ?_⟩
      simp [RingQueue.empty]
  | push r r' t _ hp ih =>
      unfold RingQueue.push at hp
      split at hp
      · cases hp
        dsimp only
        omega
      · cases hp
  | pop r r' t _ hp ih =>
      unfold RingQueue.pop_local at hp
      split at hp
      · next hg =>
          injection hp with hp2
          cases hp2
          dsimp only
          omega
      · cases hp
  | steal r r' t _ hp ih =>
      unfold RingQueue.steal at hp
      split at hp
      · next hg =>
          injection hp with hp2
          cases hp2
          dsimp only
          omega
      · cases hp

theorem push_n_spec (n : ℕ) (h : n ≤ modulus - 1) :
    RingReach (push_n n) ∧ (push_n n).head = 0 ∧ (push_n n).tail = n := by
  induction n with
  | zero => exact ⟨RingReach.init, rfl, rfl⟩
  | succ k ih =>
      obtain ⟨hr, hh, ht⟩ := ih (by omega)
      have hguard : (push_n k).tail - (push_n k).head < modulus - 1 := by
        rw [hh, ht]; omega
      have hp : (push_n k).push 0 =
          some ⟨(push_n k).head, (push_n k).tail + 1,
                (push_n k).slots.set ((push_n k).tail % modulus) 0⟩ := by
        unfold RingQueue.push
        rw [if_pos hguard]
      refine ⟨?_, ?_, ?_⟩
      · exact RingReach.push _ _ 0 hr (by rw [push_n, hp])
      · show (push_n (k + 1)).head = 0
        rw [push_n, hp]
        exact hh
      · show (push_n (k + 1)).tail = k + 1
        rw [push_n, hp]
        dsimp only
        omega

/-! ## Helper lemmas about truncating division -/

theorem tdiv_nonpos_of_nonpos {a b : ℤ} (ha : a ≤ 0) (hb : 0 ≤ b) :
    a.tdiv b ≤ 0 := by
  have h1 : a = -(-a) := by ring
  have h2 : 0 ≤ (-a).tdiv b := Int.tdiv_nonneg (by omega) hb
  calc a.tdiv b = (-(-a)).tdiv b := by rw [← h1]
    _ = -((-a).tdiv b) := Int.neg_tdiv _ _
    _ ≤ 0 := by omega

theorem duration_cast_def (c : ℤ) (num den sn sd : ℕ) :
    duration_cast c num den sn sd = (c * num * sd).tdiv (den * sn) := rfl

/-! ## Claim theorems: scheduling with delays -/

/-- C5: for every task, `schedule_after` with a non-positive delay (in
particular zero) is equivalent to `schedule`: `sched_impl` degenerates to
an immediate submit, and the delay heap is bypassed. -/
theorem C5_nonpositive_delay_schedules_directly (s : PoolState)
    (steadyNow c : ℤ) (num den sn sd : ℕ) (h : c ≤ 0) :
    sched_impl s steadyNow c = schedule s ∧
    schedule_after_dur s steadyNow c num den sn sd = schedule s ∧
    (schedule_after_dur s steadyNow c num den sn sd).delayed = s.delayed := by
  have h1 : sched_impl s steadyNow c = schedule s := by
    unfold sched_impl
    rw [if_pos h]
  have hnum : (0:ℤ) ≤ (num : ℤ) := Int.natCast_nonneg num
  have hsd : (0:ℤ) ≤ (sd : ℤ) := Int.natCast_nonneg sd
  have ha : c * (num : ℤ) * (sd : ℤ) ≤ 0 := by
    nlinarith [mul_nonneg (neg_nonneg.mpr h) (mul_nonneg hnum hsd)]
  have hcast : duration_cast c num den sn sd ≤ 0 := by
    rw [duration_cast_def]
    exact tdiv_nonpos_of_nonpos ha
      (mul_nonneg (Int.natCast_nonneg den) (Int.natCast_nonneg sn))
  have h2 : schedule_after_dur s steadyNow c num den sn sd = schedule s := by
    unfold schedule_after_dur sched_impl
    rw [if_pos hcast]
  exact ⟨h1, h2, by rw [h2]; rfl⟩

/-- Witness for C5 at delay zero on a one-worker pool. -/
theorem C5_witness :
    sched_impl (initState 1) 0 0 = schedule (initState 1) ∧
    schedule_after_dur (initState 1) 0 0 1 1 1 1 = schedule (initState 1) ∧
    (schedule_after_dur (initState 1) 0 0 1 1 1 1).delayed =
      (initState 1).delayed :=
  C5_nonpositive_delay_schedules_directly (initState 1) 0 0 1 1 1 1
    (by decide)

/-- C7: the time-point overload of `schedule_after` evaluates the clock
once and forwards `duration_cast` of `time - Clock::now()`, hence equals
the duration overload applied to that computed delay. -/
theorem C7_timepoint_overload_is_duration_overload (s : PoolState)
    (steadyNow timeCount nowCount : ℤ) (num den sn sd : ℕ) :
    schedule_after_time s steadyNow timeCount nowCount num den sn sd =
      schedule_after_dur s steadyNow (timeCount - nowCount) num den sn sd ∧
    schedule_after_time s steadyNow timeCount nowCount num den sn sd =
      sched_impl s steadyNow
        (duration_cast (timeCount - nowCount) num den sn sd) :=
  ⟨rfl, rfl⟩

/-- C10: the duration overload forwards the truncated cast of the
relative time to `sched_impl`; the truncation is toward zero, discards any
sub-tick fraction, and maps a positive delay below one steady tick to a
zero delay.  The delay is `c` ticks of period `num / den` seconds; a
steady tick is `sn / sd` seconds, so the delay is below one tick exactly
when `c * num * sd < den * sn`. -/
theorem C10_duration_cast_truncates_toward_zero (s : PoolState)
    (steadyNow c : ℤ) (num den sn sd : ℕ)
    (hden : 0 < den) (hsn : 0 < sn) :
    schedule_after_dur s steadyNow c num den sn sd =
      sched_impl s steadyNow (duration_cast c num den sn sd) ∧
    (0 ≤ c → c * (num:ℤ) * (sd:ℤ) < (den:ℤ) * (sn:ℤ) →
      duration_cast c num den sn sd = 0) ∧
    duration_cast (-c) num den sn sd = -(duration_cast c num den sn sd) ∧
    (0 ≤ c →
      duration_cast c num den sn sd * ((den:ℤ) * (sn:ℤ)) ≤
        c * (num:ℤ) * (sd:ℤ) ∧
      c * (num:ℤ) * (sd:ℤ) <
        (duration_cast c num den sn sd + 1) * ((den:ℤ) * (sn:ℤ))) := by
  have hb : (0:ℤ) < (den:ℤ) * (sn:ℤ) := by
    have := Nat.mul_pos hden hsn
    exact_mod_cast this
  refine ⟨rfl, ?_, ?_, ?_⟩
  · intro hc hlt
    have ha : 0 ≤ c * (num:ℤ) * (sd:ℤ) :=
      mul_nonneg (mul_nonneg hc (Int.natCast_nonneg num))
        (Int.natCast_nonneg sd)
    rw [duration_cast_def]
    exact Int.tdiv_eq_zero_of_lt ha hlt
  · rw [duration_cast_def, duration_cast_def]
    have hneg : (-c) * (num:ℤ) * (sd:ℤ) = -(c * (num:ℤ) * (sd:ℤ)) := by ring
    rw [hneg]
    exact Int.neg_tdiv _ _
  · intro hc
    have ha : 0 ≤ c * (num:ℤ) * (sd:ℤ) :=
      mul_nonneg (mul_nonneg hc (Int.natCast_nonneg num))
        (Int.natCast_nonneg sd)
    rw [duration_cast_def, Int.tdiv_eq_ediv ha hb.le]
    exact ⟨Int.ediv_mul_le _ hb.ne', Int.lt_ediv_add_one_mul_self _ hb⟩

/-- Witness for C10 with microsecond delays against a nanosecond steady
tick. -/
theorem C10_witness :
    schedule_after_dur (initState 1) 0 1 1 2000000000 1 1000000000 =
      sched_impl (initState 1) 0
        (duration_cast 1 1 2000000000 1 1000000000) ∧
    (0 ≤ (1:ℤ) →
      (1:ℤ) * ((1:ℕ):ℤ) * ((1000000000:ℕ):ℤ) <
        ((2000000000:ℕ):ℤ) * ((1:ℕ):ℤ) →
      duration_cast 1 1 2000000000 1 1000000000 = 0) ∧
    duration_cast (-1) 1 2000000000 1 1000000000 =
      -(duration_cast 1 1 2000000000 1 1000000000) ∧
    (0 ≤ (1:ℤ) →
      duration_cast 1 1 2000000000 1 1000000000 *
          (((2000000000:ℕ):ℤ) * ((1:ℕ):ℤ)) ≤
        (1:ℤ) * ((1:ℕ):ℤ) * ((1000000000:ℕ):ℤ) ∧
      (1:ℤ) * ((1:ℕ):ℤ) * ((1000000000:ℕ):ℤ) <
        (duration_cast 1 1 2000000000 1 1000000000 + 1) *
          (((2000000000:ℕ):ℤ) * ((1:ℕ):ℤ))) :=
  C10_duration_cast_truncates_toward_zero (initState 1) 0 1 1 2000000000 1
    1000000000 (by decide) (by decide)

/-! ## Claim theorems: ring queue capacity and spill -/

/-- C6: an owner push succeeds exactly when `tail - head < C - 1`; a ring
holding exactly `C - 1` tasks accepts no more, and one further submit from
the owner is not an error: the task is silently spilled to the central
queue. -/
theorem C6_push_full_spills_to_central (r rfull : RingQueue)
    (central : List ℕ) (t : ℕ)
    (hfull : rfull.tail - rfull.head = modulus - 1) :
    (((r.push t).isSome = true) ↔ r.tail - r.head < modulus - 1) ∧
    rfull.push t = none ∧
    schedule_from_worker rfull central t = (rfull, central ++ [t]) := by
  have hnone : rfull.push t = none := by
    unfold RingQueue.push
    rw [if_neg (by omega)]
  refine ⟨push_isSome_iff r t, hnone, ?_⟩
  unfold schedule_from_worker
  rw [hnone]

/-- Witness for C6 at a concrete full ring. -/
theorem C6_witness :
    (((RingQueue.empty.push 7).isSome = true) ↔
      RingQueue.empty.tail - RingQueue.empty.head < modulus - 1) ∧
    fullRingWit.push 7 = none ∧
    schedule_from_worker fullRingWit [] 7 = (fullRingWit, [] ++ [7]) :=
  C6_push_full_spills_to_central RingQueue.empty fullRingWit [] 7 (by decide)

/-- C8: `get_worker_capacity` is the build-time constant `C - 1` with
`C = 2 ^ kLog2Modulus`; every reachable ring holds at most that many
tasks, a push succeeds exactly below it, and the bound is attained. -/
theorem C8_worker_capacity_constant (r : RingQueue) (t : ℕ)
    (h : RingReach r) :
    get_worker_capacity = 2 ^ kLog2Modulus - 1 ∧
    r.size ≤ get_worker_capacity ∧
    (((r.push t).isSome = true) ↔ r.size < get_worker_capacity) ∧
    RingReach (push_n get_worker_capacity) ∧
    (push_n get_worker_capacity).size = get_worker_capacity := by
  obtain ⟨h1, h2⟩ := ringReach_bounds h
  obtain ⟨hr, hh, ht⟩ := push_n_spec get_worker_capacity (Nat.le_refl _)
  refine ⟨rfl, h2, push_isSome_iff r t, hr, ?_⟩
  show (push_n get_worker_capacity).tail - (push_n get_worker_capacity).head =
    get_worker_capacity
  rw [hh, ht]
  omega

/-! ## Claim theorems: error surface of construction and resume -/

theorem started_count_le (cap : ℕ) (starts : List Bool) :
    started_count cap starts ≤ cap := by
  unfold started_count
  calc ((starts.take cap).filter (fun b => b)).length
      ≤ (starts.take cap).length := List.length_filter_le _ _
    _ ≤ cap := List.length_take_le _ _

/-- C3: the constructor and `resume` raise `std::system_error` exactly
when they could not ensure at least one started worker thread; a
successful construction or resume yields a pool whose `get_concurrency()`
is the number of workers actually started, possibly fewer than the
requested capacity; and no other operation surfaces a user-visible
failure. -/
theorem C3_start_failure_error_surface (wc dc wc2 dc2 : ℕ)
    (starts starts2 restarts restarts2 : List Bool) (p p2 q q' : PoolHandle)
    (op : PoolOp) (s : PoolState)
    (hpc : p2.concurrency ≤ p2.capacity)
    (hq : mk_threadpool wc2 dc2 starts2 = .ok q)
    (hq' : resume_restart p2 restarts2 = .ok q') :
    ((mk_threadpool wc dc starts).isOk = false ↔
      started_count (effective_capacity wc dc) starts = 0) ∧
    ((resume_restart p restarts).isOk = false ↔
      p.concurrency + started_count (p.capacity - p.concurrency) restarts
        = 0) ∧
    q.concurrency = started_count (effective_capacity wc2 dc2) starts2 ∧
    q.concurrency ≤ effective_capacity wc2 dc2 ∧
    0 < q.concurrency ∧
    q'.concurrency =
      p2.concurrency +
        started_count (p2.capacity - p2.concurrency) restarts2 ∧
    q'.concurrency ≤ p2.capacity ∧
    0 < q'.concurrency ∧
    (run_op op s).isOk = true := by
  refine ⟨?_, ?_, ?_⟩
  · simp only [mk_threadpool]
    split
    · next hn => exact iff_of_true rfl hn
    · next hn => exact iff_of_false (fun hc => Bool.noConfusion hc) hn
  · simp only [resume_restart]
    split
    · next hn => exact iff_of_true rfl hn
    · next hn => exact iff_of_false (fun hc => Bool.noConfusion hc) hn
  · simp only [mk_threadpool] at hq
    simp only [resume_restart] at hq'
    split at hq
    · cases hq
    · next hn =>
        cases hq
        split at hq'
        · cases hq'
        · next hn' =>
            cases hq'
            dsimp only
            have hsc2 := started_count_le (p2.capacity - p2.concurrency)
              restarts2
            refine ⟨rfl, started_count_le _ _, by omega, rfl, by omega,
              by omega, ?_⟩
            cases op <;> rfl

/-- Witness for C3: a 2-capacity pool with one worker started, a resume
that revives the second worker, and a halt operation. -/
theorem C3_witness :
    ((mk_threadpool 5 4 []).isOk = false ↔
      started_count (effective_capacity 5 4) [] = 0) ∧
    ((resume_restart ⟨0, 1⟩ []).isOk = false ↔
      (PoolHandle.mk 0 1).concurrency +
        started_count
          ((PoolHandle.mk 0 1).capacity - (PoolHandle.mk 0 1).concurrency)
          [] = 0) ∧
    (PoolHandle.mk 1 2).concurrency =
      started_count (effective_capacity 2 4) [true, false] ∧
    (PoolHandle.mk 1 2).concurrency ≤ effective_capacity 2 4 ∧
    0 < (PoolHandle.mk 1 2).concurrency ∧
    (PoolHandle.mk 2 2).concurrency =
      (PoolHandle.mk 1 2).concurrency +
        started_count
          ((PoolHandle.mk 1 2).capacity - (PoolHandle.mk 1 2).concurrency)
          [true] ∧
    (PoolHandle.mk 2 2).concurrency ≤ (PoolHandle.mk 1 2).capacity ∧
    0 < (PoolHandle.mk 2 2).concurrency ∧
    (run_op .opHalt (initState 1)).isOk = true :=
  C3_start_failure_error_surface 5 4 2 4 [] [true, false] [] [true]
    ⟨0, 1⟩ ⟨1, 2⟩ ⟨1, 2⟩ ⟨2, 2⟩ .opHalt (initState 1) (by decide) rfl rfl

/-! ## Claim theorems: idleness -/

/-- C9: `is_idle` returns true exactly when every worker is parked and
the central queue and delay heap are both empty; observed from within one
of the pool tasks — so with the observing worker running — it is
necessarily false. -/
theorem C9_is_idle_iff_parked_and_empty (p q : PoolObs) (i : ℕ)
    (h : q.workers[i]? = some .running) :
    (is_idle p = true ↔
      (∀ w ∈ p.workers, w = .parked) ∧ p.centralQ = [] ∧ p.delayedQ = []) ∧
    is_idle q = false := by
  constructor
  · simp [is_idle, List.all_eq_true, List.isEmpty_iff, and_assoc]
  · have hmem : WorkerStatus.running ∈ q.workers := by
      have hlt : i < q.workers.length := by
        by_contra hge
        rw [List.getElem?_eq_none (by omega)] at h
        cases h
      have hget : q.workers[i] = .running := by
        have := List.getElem?_eq_getElem hlt
        rw [this] at h
        injection h
      rw [← hget]
      exact q.workers.getElem_mem hlt
    have hall : q.workers.all (fun w => w == .parked) = false := by
      rw [List.all_eq_false]
      exact ⟨.running, hmem, by decide⟩
    simp [is_idle, hall]

/-- Witness for C9: an idle pool and a pool whose sole worker is
running. -/
theorem C9_witness :
    (is_idle ⟨[.parked], [], []⟩ = true ↔
      (∀ w ∈ (PoolObs.mk [.parked] [] []).workers, w = .parked) ∧
      (PoolObs.mk [.parked] [] []).centralQ = [] ∧
      (PoolObs.mk [.parked] [] []).delayedQ = []) ∧
    is_idle ⟨[.running], [], []⟩ = false :=
  C9_is_idle_iff_parked_and_empty ⟨[.parked], [], []⟩ ⟨[.running], [], []⟩
    0 rfl

/-! ## Helper lemmas: task counting across the containers -/

theorem sum_map_set (f : List ℕ → ℕ) :
    ∀ (ls : List (List ℕ)) (i : ℕ) (q q' : List ℕ), ls[i]? = some q →
      ((ls.set i q').map f).sum + f q = (ls.map f).sum + f q'
  | [], i, q, q', h => by simp at h
  | a :: tl, 0, q, q', h => by
      rw [List.getElem?_cons_zero] at h
      injection h with h
      subst h
      rw [List.set_cons_zero, List.map_cons, List.map_cons, List.sum_cons,
        List.sum_cons]
      omega
  | a :: tl, i + 1, q, q', h => by
      rw [List.getElem?_cons_succ] at h
      have key := sum_map_set f tl i q q' h
      rw [List.set_cons_succ, List.map_cons, List.map_cons, List.sum_cons,
        List.sum_cons]
      omega

theorem count_flatten (ls : List (List ℕ)) (id : ℕ) :
    ls.flatten.count id = (ls.map (fun q => q.count id)).sum := by
  induction ls with
  | nil => simp
  | cons a tl ih => simp [List.count_append, ih]

theorem count_partition (l : List (ℤ × ℕ)) (now : ℤ) (id : ℕ) :
    ((l.filter (fun e => decide (e.1 ≤ now))).map Prod.snd).count id +
      ((l.filter (fun e => !decide (e.1 ≤ now))).map Prod.snd).count id =
      (l.map Prod.snd).count id := by
  induction l with
  | nil => simp
  | cons a tl ih =>
      by_cases h : a.1 ≤ now <;>
        simp [List.filter_cons, h, List.count_cons] <;> omega

theorem eq_dropLast_append {q : List ℕ} {t : ℕ} (h : q.getLast? = some t) :
    q = q.dropLast ++ [t] := by
  induction q with
  | nil => cases h
  | cons a tl ih =>
      cases tl with
      | nil =>
          simp at h
          subst h
          rfl
      | cons b tl2 =>
          rw [List.getLast?_cons_cons] at h
          have hrec := ih h
          calc a :: b :: tl2 = a :: ((b :: tl2).dropLast ++ [t]) := by
                rw [← hrec]
            _ = (a :: b :: tl2).dropLast ++ [t] := rfl

/-! ## Effect of each scheduler transition on the task lifecycle count -/

theorem lifeCount_submit_central (s : PoolState) (id : ℕ) :
    lifeCount (submit_central s) id =
      lifeCount s id + [s.nextId].count id := by
  unfold lifeCount pendingCount submit_central
  dsimp only
  rw [List.count_append]
  omega

theorem lifeCount_submit_delayed (s : PoolState) (d : ℤ) (id : ℕ) :
    lifeCount (submit_delayed s d) id =
      lifeCount s id + [s.nextId].count id := by
  unfold lifeCount pendingCount submit_delayed
  dsimp only
  rw [List.map_append, List.count_append, List.map_cons, List.map_nil]
  dsimp only
  omega

theorem submit_local_eq_of_none (s : PoolState) (i : ℕ)
    (h : s.locals[i]? = none) : submit_local s i = s := by
  unfold submit_local
  rw [h]

theorem submit_local_eq_of_some (s : PoolState) (i : ℕ) (q : List ℕ)
    (h : s.locals[i]? = some q) :
    submit_local s i =
      { s with locals := s.locals.set i (s.nextId :: q),
               nextId := s.nextId + 1 } := by
  simp [submit_local, h]

theorem lifeCount_submit_local (s : PoolState) (i : ℕ) (q : List ℕ)
    (h : s.locals[i]? = some q) (id : ℕ) :
    lifeCount (submit_local s i) id =
      lifeCount s id + [s.nextId].count id := by
  have key := sum_map_set (fun l => l.count id) s.locals i q (s.nextId :: q) h
  dsimp only at key
  have hcnt : (s.nextId :: q).count id = [s.nextId].count id + q.count id := by
    rw [← List.singleton_append, List.count_append]
  unfold lifeCount pendingCount submit_local
  rw [h]
  dsimp only
  omega

theorem invoke_local_eq_of_none (s : PoolState) (i : ℕ)
    (h : s.locals[i]? = none) : invoke_local s i = s := by
  unfold invoke_local
  rw [h]

theorem invoke_local_eq_of_nil (s : PoolState) (i : ℕ)
    (h : s.locals[i]? = some []) : invoke_local s i = s := by
  unfold invoke_local
  rw [h]

theorem invoke_local_eq_of_cons (s : PoolState) (i t : ℕ) (rest : List ℕ)
    (h : s.locals[i]? = some (t :: rest)) :
    invoke_local s i =
      { s with locals := s.locals.set i rest,
               invoked := s.invoked ++ [t] } := by
  simp [invoke_local, h]

theorem lifeCount_invoke_local (s : PoolState) (i t : ℕ) (rest : List ℕ)
    (h : s.locals[i]? = some (t :: rest)) (id : ℕ) :
    lifeCount (invoke_local s i) id = lifeCount s id := by
  have key := sum_map_set (fun l => l.count id) s.locals i (t :: rest) rest h
  dsimp only at key
  have hcnt : (t :: rest).count id = [t].count id + rest.count id := by
    rw [← List.singleton_append, List.count_append]
  unfold lifeCount pendingCount invoke_local
  rw [h]
  dsimp only
  rw [List.count_append]
  omega

theorem steal_invoke_eq_of_none (s : PoolState) (i : ℕ)
    (h : s.locals[i]? = none) : steal_invoke s i = s := by
  simp [steal_invoke, h]

theorem steal_invoke_eq_of_nolast (s : PoolState) (i : ℕ) (q : List ℕ)
    (h : s.locals[i]? = some q) (hl : q.getLast? = none) :
    steal_invoke s i = s := by
  simp [steal_invoke, h, hl]

theorem steal_invoke_eq_of_last (s : PoolState) (i : ℕ) (q : List ℕ)
    (t : ℕ) (h : s.locals[i]? = some q) (hl : q.getLast? = some t) :
    steal_invoke s i =
      { s with locals := s.locals.set i q.dropLast,
               invoked := s.invoked ++ [t] } := by
  simp [steal_invoke, h, hl]

theorem lifeCount_steal_invoke (s : PoolState) (i : ℕ) (q : List ℕ) (t : ℕ)
    (h : s.locals[i]? = some q) (hl : q.getLast? = some t) (id : ℕ) :
    lifeCount (steal_invoke s i) id = lifeCount s id := by
  have hstate := steal_invoke_eq_of_last s i q t h hl
  have key := sum_map_set (fun l => l.count id) s.locals i q q.dropLast h
  dsimp only at key
  have hcnt : q.count id = q.dropLast.count id + [t].count id := by
    conv_lhs => rw [eq_dropLast_append hl]
    rw [List.count_append]
  rw [hstate]
  unfold lifeCount pendingCount
  dsimp only
  rw [List.count_append]
  omega

theorem drain_eq_of_central_nil (s : PoolState) (i : ℕ)
    (h : s.central = []) : drain_central_one s i = s := by
  unfold drain_central_one
  rw [h]

theorem drain_eq_of_none (s : PoolState) (i c : ℕ) (rest : List ℕ)
    (hc : s.central = c :: rest) (h : s.locals[i]? = none) :
    drain_central_one s i = s := by
  simp [drain_central_one, hc, h]

theorem drain_eq_of_some (s : PoolState) (i c : ℕ) (rest q : List ℕ)
    (hc : s.central = c :: rest) (h : s.locals[i]? = some q) :
    drain_central_one s i =
      { s with central := rest, locals := s.locals.set i (c :: q) } := by
  simp [drain_central_one, hc, h]

theorem lifeCount_drain (s : PoolState) (i c : ℕ) (rest q : List ℕ)
    (hc : s.central = c :: rest) (h : s.locals[i]? = some q) (id : ℕ) :
    lifeCount (drain_central_one s i) id = lifeCount s id := by
  have hstate := drain_eq_of_some s i c rest q hc h
  have key := sum_map_set (fun l => l.count id) s.locals i q (c :: q) h
  dsimp only at key
  have hcnt1 : (c :: q).count id = [c].count id + q.count id := by
    rw [← List.singleton_append, List.count_append]
  have hcnt2 : (c :: rest).count id = [c].count id + rest.count id := by
    rw [← List.singleton_append, List.count_append]
  rw [hstate]
  unfold lifeCount pendingCount
  dsimp only
  rw [hc, hcnt2]
  omega

theorem lifeCount_promote (s : PoolState) (now : ℤ) (id : ℕ) :
    lifeCount (promote_due s now) id = lifeCount s id := by
  have key := count_partition s.delayed now id
  unfold lifeCount pendingCount promote_due
  dsimp only
  rw [List.count_append]
  omega

theorem lifeCount_halt (s : PoolState) (id : ℕ) :
    lifeCount (halt s) id = lifeCount s id := rfl

theorem lifeCount_resume (s : PoolState) (id : ℕ) :
    lifeCount (resume s) id = lifeCount s id := rfl

theorem pendingCount_teardown (s : PoolState) (id : ℕ) :
    pendingCount (teardown s) id = 0 := by
  unfold pendingCount teardown
  dsimp only
  simp [List.map_map, Function.comp]

theorem lifeCount_teardown (s : PoolState) (id : ℕ) :
    lifeCount (teardown s) id = lifeCount s id := by
  unfold lifeCount
  rw [pendingCount_teardown]
  unfold pendingCount teardown
  dsimp only
  rw [List.count_append, List.count_append, List.count_append, count_flatten]
  omega

/-! ## The lifecycle invariant is preserved by every transition -/

theorem inv_of_move {s s' : PoolState} (hstop : s'.stopped = false)
    (hnext : s'.nextId = s.nextId)
    (hlc : ∀ id, lifeCount s' id = lifeCount s id) (hinv : Inv s) :
    Inv s' := by
  obtain ⟨h1, h2, h3⟩ := hinv
  refine ⟨?_, ?_, ?_⟩
  · intro id h
    rw [hlc]
    exact h1 id (by omega)
  · intro id h
    rw [hlc]
    exact h2 id (by omega)
  · intro hst
    rw [hstop] at hst
    cases hst

theorem inv_of_submit {s s' : PoolState} (hstop : s'.stopped = false)
    (hnext : s'.nextId = s.nextId + 1)
    (hlc : ∀ id, lifeCount s' id = lifeCount s id + [s.nextId].count id)
    (hinv : Inv s) : Inv s' := by
  obtain ⟨h1, h2, h3⟩ := hinv
  refine ⟨?_, ?_, ?_⟩
  · intro id h
    rw [hlc]
    by_cases hid : id = s.nextId
    · rw [hid, h2 s.nextId (Nat.le_refl _)]
      simp
    · have hlt : id < s.nextId := by omega
      have hz : [s.nextId].count id = 0 := by
        rw [List.count_singleton']
        exact if_neg (fun hc => hid hc.symm)
      rw [h1 id hlt, hz]
  · intro id h
    have h0 : lifeCount s id = 0 := h2 id (by omega)
    have hid : id ≠ s.nextId := by omega
    have hz : [s.nextId].count id = 0 := by
      rw [List.count_singleton']
      exact if_neg (fun hc => hid hc.symm)
    rw [hlc, h0, hz]
  · intro hst
    rw [hstop] at hst
    cases hst

theorem inv_teardown {s : PoolState} (hinv : Inv s) : Inv (teardown s) := by
  obtain ⟨h1, h2, h3⟩ := hinv
  refine ⟨?_, ?_, ?_⟩
  · intro id h
    rw [lifeCount_teardown]
    exact h1 id h
  · intro id h
    rw [lifeCount_teardown]
    exact h2 id h
  · intro _ id
    exact pendingCount_teardown s id

theorem step_inv {s s' : PoolState} (hstep : Step s s') (hinv : Inv s) :
    Inv s' := by
  cases hstep with
  | submitC hs =>
      exact inv_of_submit hs rfl (lifeCount_submit_central s) hinv
  | submitL i hs =>
      cases hloc : s.locals[i]? with
      | none => rw [submit_local_eq_of_none s i hloc]; exact hinv
      | some q =>
          refine inv_of_submit ?_ ?_ (lifeCount_submit_local s i q hloc) hinv
          · rw [submit_local_eq_of_some s i q hloc]
            exact hs
          · rw [submit_local_eq_of_some s i q hloc]
  | submitD d hs =>
      exact inv_of_submit hs rfl (lifeCount_submit_delayed s d) hinv
  | invokeL i hh hs =>
      cases hloc : s.locals[i]? with
      | none => rw [invoke_local_eq_of_none s i hloc]; exact hinv
      | some q =>
          cases q with
          | nil => rw [invoke_local_eq_of_nil s i hloc]; exact hinv
          | cons t rest =>
              refine inv_of_move ?_ ?_
                (lifeCount_invoke_local s i t rest hloc) hinv
              · rw [invoke_local_eq_of_cons s i t rest hloc]
                exact hs
              · rw [invoke_local_eq_of_cons s i t rest hloc]
  | stealI i hh hs =>
      cases hloc : s.locals[i]? with
      | none => rw [steal_invoke_eq_of_none s i hloc]; exact hinv
      | some q =>
          cases hl : q.getLast? with
          | none => rw [steal_invoke_eq_of_nolast s i q hloc hl]; exact hinv
          | some t =>
              refine inv_of_move ?_ ?_
                (lifeCount_steal_invoke s i q t hloc hl) hinv
              · rw [steal_invoke_eq_of_last s i q t hloc hl]
                exact hs
              · rw [steal_invoke_eq_of_last s i q t hloc hl]
  | drainC i hh hs =>
      cases hc : s.central with
      | nil => rw [drain_eq_of_central_nil s i hc]; exact hinv
      | cons c rest =>
          cases hloc : s.locals[i]? with
          | none => rw [drain_eq_of_none s i c rest hc hloc]; exact hinv
          | some q =>
              refine inv_of_move ?_ ?_
                (lifeCount_drain s i c rest q hc hloc) hinv
              · rw [drain_eq_of_some s i c rest q hc hloc]
                exact hs
              · rw [drain_eq_of_some s i c rest q hc hloc]
  | promote now hs =>
      exact inv_of_move (s := s) hs rfl (lifeCount_promote s now) hinv
  | haltS hs =>
      exact inv_of_move (s := s) hs rfl (lifeCount_halt s) hinv
  | resumeS hs =>
      exact inv_of_move (s := s) hs rfl (lifeCount_resume s) hinv
  | stop hs =>
      exact inv_teardown hinv

theorem reach_inv {s : PoolState} (h : Reach s) : Inv s := by
  induction h with
  | init n =>
      refine ⟨?_, ?_, ?_⟩
      · intro id h
        exact absurd h (Nat.not_lt_zero id)
      · intro id _
        simp [lifeCount, pendingCount, initState]
      · intro hst
        simp [initState] at hst
  | step hr hstep ih => exact step_inv hstep ih

/-! ## Helper lemmas: worker-loop membership transfer -/

theorem mem_of_get? : ∀ {l : List (List ℕ)} {i : ℕ} {a : List ℕ},
    l[i]? = some a → a ∈ l
  | [], _, _, h => by simp at h
  | b :: tl, 0, a, h => by
      rw [List.getElem?_cons_zero] at h
      injection h with h
      subst h
      exact List.mem_cons_self b tl
  | b :: tl, i + 1, a, h => by
      rw [List.getElem?_cons_succ] at h
      exact List.mem_cons_of_mem b (mem_of_get? h)

theorem lt_length_of_get? : ∀ {l : List (List ℕ)} {i : ℕ} {a : List ℕ},
    l[i]? = some a → i < l.length
  | [], _, _, h => by simp at h
  | _ :: _, 0, _, _ => Nat.succ_pos _
  | b :: tl, i + 1, a, h => by
      rw [List.getElem?_cons_succ] at h
      exact Nat.succ_lt_succ (lt_length_of_get? h)

theorem get?_set_self : ∀ {l : List (List ℕ)} {i : ℕ} (a : List ℕ),
    i < l.length → (l.set i a)[i]? = some a
  | [], i, a, h => by simp at h
  | b :: tl, 0, a, _ => by
      rw [List.set_cons_zero, List.getElem?_cons_zero]
  | b :: tl, i + 1, a, h => by
      rw [List.set_cons_succ, List.getElem?_cons_succ]
      exact get?_set_self a (Nat.lt_of_succ_lt_succ h)

theorem mem_set_cover : ∀ (ls : List (List ℕ)) (i : ℕ) (q q' : List ℕ),
    ls[i]? = some q → ∀ id : ℕ, (∃ l ∈ ls, id ∈ l) →
      (∃ l ∈ ls.set i q', id ∈ l) ∨ id ∈ q
  | [], _, _, _, h, _, _ => by simp at h
  | a :: tl, 0, q, q', h, id, hm => by
      rw [List.getElem?_cons_zero] at h
      injection h with h
      subst h
      obtain ⟨l, hl, hid⟩ := hm
      rw [List.set_cons_zero]
      rcases List.mem_cons.mp hl with rfl | hltl
      · exact Or.inr hid
      · exact Or.inl ⟨l, List.mem_cons_of_mem q' hltl, hid⟩
  | a :: tl, i + 1, q, q', h, id, hm => by
      rw [List.getElem?_cons_succ] at h
      obtain ⟨l, hl, hid⟩ := hm
      rw [List.set_cons_succ]
      rcases List.mem_cons.mp hl with rfl | hltl
      · exact Or.inl ⟨l, List.mem_cons_self _ _, hid⟩
      · rcases mem_set_cover tl i q q' h id ⟨l, hltl, hid⟩ with
          ⟨l2, hl2, hid2⟩ | hinq
        · exact Or.inl ⟨l2, List.mem_cons_of_mem a hl2, hid2⟩
        · exact Or.inr hinq

theorem find_work_none : ∀ (ls : List (List ℕ)), find_work ls = none →
    ∀ q ∈ ls, q = []
  | [], _, q, hq => by simp at hq
  | [] :: rest, h, q, hq => by
      have h2 : find_work rest = none := by
        cases hfr : find_work rest with
        | none => rfl
        | some j =>
            rw [show find_work ([] :: rest) = (find_work rest).map (· + 1)
              from rfl, hfr] at h
            cases h
      rcases List.mem_cons.mp hq with rfl | hqr
      · rfl
      · exact find_work_none rest h2 q hqr
  | (t :: tq) :: rest, h, q, hq => by
      rw [show find_work ((t :: tq) :: rest) = some 0 from rfl] at h
      cases h

theorem find_work_some : ∀ (ls : List (List ℕ)) (i : ℕ),
    find_work ls = some i → ∃ t rest, ls[i]? = some (t :: rest)
  | [], i, h => by
      rw [show find_work ([] : List (List ℕ)) = none from rfl] at h
      cases h
  | (t :: tq) :: rest, i, h => by
      rw [show find_work ((t :: tq) :: rest) = some 0 from rfl] at h
      injection h with h
      subst h
      exact ⟨t, tq, by rw [List.getElem?_cons_zero]⟩
  | [] :: rest, i, h => by
      rw [show find_work ([] :: rest) = (find_work rest).map (· + 1)
        from rfl] at h
      cases hfr : find_work rest with
      | none => rw [hfr] at h; cases h
      | some j =>
          rw [hfr] at h
          injection h with h
          obtain ⟨t, tq, hget⟩ := find_work_some rest j hfr
          subst h
          exact ⟨t, tq, by rw [List.getElem?_cons_succ]; exact hget⟩

theorem invoke_local_frame (s : PoolState) (i : ℕ) :
    (invoke_local s i).halted = s.halted ∧
    (invoke_local s i).stopped = s.stopped := by
  unfold invoke_local
  split <;> exact ⟨rfl, rfl⟩

theorem drain_frame (s : PoolState) (i : ℕ) :
    (drain_central_one s i).halted = s.halted ∧
    (drain_central_one s i).stopped = s.stopped := by
  unfold drain_central_one
  split
  · split <;> exact ⟨rfl, rfl⟩
  · exact ⟨rfl, rfl⟩

/-! ## The worker loop drains every queued task -/

theorem run_fuel_drains : ∀ (fuel : ℕ) (s : PoolState), load s ≤ fuel →
    0 < s.locals.length →
    (∀ q ∈ (run_fuel fuel s).locals, q = []) ∧
    (run_fuel fuel s).central = [] ∧
    (∀ id, (id ∈ s.central ∨ ∃ q ∈ s.locals, id ∈ q) →
      id ∈ (run_fuel fuel s).invoked) ∧
    (∀ id, id ∈ s.invoked → id ∈ (run_fuel fuel s).invoked) ∧
    (run_fuel fuel s).halted = s.halted ∧
    (run_fuel fuel s).stopped = s.stopped ∧
    (run_fuel fuel s).delayed = s.delayed := by
  intro fuel
  induction fuel with
  | zero =>
      intro s hload hw
      have hc : s.central = [] := by
        have hlen : s.central.length = 0 := by
          unfold load at hload
          omega
        exact List.length_eq_zero.mp hlen
      have hloc : ∀ q ∈ s.locals, q = [] := by
        intro q hq
        have hsum : (s.locals.map List.length).sum = 0 := by
          unfold load at hload
          omega
        have hmem : q.length ∈ s.locals.map List.length :=
          List.mem_map_of_mem _ hq
        have hlen : q.length = 0 := (List.sum_eq_zero_iff.mp hsum) _ hmem
        exact List.length_eq_zero.mp hlen
      refine ⟨hloc, hc, ?_, fun id h => h, rfl, rfl, rfl⟩
      intro id hid
      rcases hid with hid | ⟨q, hq, hid⟩
      · rw [hc] at hid
        cases hid
      · rw [hloc q hq] at hid
        cases hid
  | succ k ih =>
      intro s hload hw
      cases hfw : find_work s.locals with
      | some i =>
          obtain ⟨t, rest, hget⟩ := find_work_some s.locals i hfw
          have hstate := invoke_local_eq_of_cons s i t rest hget
          have hkey := sum_map_set List.length s.locals i (t :: rest) rest hget
          have hload1 : load (invoke_local s i) ≤ k := by
            unfold load at hload ⊢
            rw [hstate]
            dsimp only
            have hlen : (t :: rest).length = rest.length + 1 := rfl
            omega
          have hw1 : 0 < (invoke_local s i).locals.length := by
            rw [hstate]
            simpa using hw
          have hrun : run_fuel (k + 1) s = run_fuel k (invoke_local s i) := by
            simp only [run_fuel, hfw]
          obtain ⟨ih1, ih2, ih3, ih4, ih5, ih6, ih7⟩ :=
            ih (invoke_local s i) hload1 hw1
          rw [hrun]
          refine ⟨ih1, ih2, ?_, ?_, ?_, ?_, ?_⟩
          · intro id hid
            rcases hid with hid | ⟨q, hq, hid⟩
            · exact ih3 id (Or.inl (by rw [hstate]; exact hid))
            · rcases mem_set_cover s.locals i (t :: rest) rest hget id
                ⟨q, hq, hid⟩ with ⟨l2, hl2, hid2⟩ | hin
              · exact ih3 id (Or.inr ⟨l2, by rw [hstate]; exact hl2, hid2⟩)
              · rcases List.mem_cons.mp hin with rfl | hinrest
                · exact ih4 id (by
                    rw [hstate]
                    exact List.mem_append_right _ (by simp))
                · have hi : i < s.locals.length := lt_length_of_get? hget
                  have hself : (s.locals.set i rest)[i]? = some rest :=
                    get?_set_self rest hi
                  exact ih3 id (Or.inr ⟨rest,
                    by rw [hstate]; exact mem_of_get? hself, hinrest⟩)
          · intro id hid
            exact ih4 id (by rw [hstate]; exact List.mem_append_left _ hid)
          · rw [ih5, hstate]
          · rw [ih6, hstate]
          · rw [ih7, hstate]
      | none =>
          have hempty := find_work_none s.locals hfw
          cases hc : s.central with
          | nil =>
              have hrun : run_fuel (k + 1) s = s := by
                simp only [run_fuel, hfw, hc]
              rw [hrun]
              refine ⟨hempty, hc, ?_, fun id h => h, rfl, rfl, rfl⟩
              intro id hid
              rcases hid with hid | ⟨q, hq, hid⟩
              · cases hid
              · rw [hempty q hq] at hid
                cases hid
          | cons c rest =>
              obtain ⟨q0, hq0⟩ : ∃ q0, s.locals[0]? = some q0 := by
                cases hls : s.locals with
                | nil =>
                    rw [hls] at hw
                    simp at hw
                | cons l0 ltl => exact ⟨l0, by rw [List.getElem?_cons_zero]⟩
              have hstate := drain_eq_of_some s 0 c rest q0 hc hq0
              have hkey := sum_map_set List.length s.locals 0 q0 (c :: q0) hq0
              have hload1 : load (drain_central_one s 0) ≤ k := by
                unfold load at hload ⊢
                rw [hstate]
                dsimp only
                rw [hc] at hload
                have h1 : (c :: rest).length = rest.length + 1 := rfl
                have h2 : (c :: q0).length = q0.length + 1 := rfl
                omega
              have hw1 : 0 < (drain_central_one s 0).locals.length := by
                rw [hstate]
                simpa using hw
              have hrun : run_fuel (k + 1) s =
                  run_fuel k (drain_central_one s 0) := by
                simp only [run_fuel, hfw, hc]
              obtain ⟨ih1, ih2, ih3, ih4, ih5, ih6, ih7⟩ :=
                ih (drain_central_one s 0) hload1 hw1
              rw [hrun]
              refine ⟨ih1, ih2, ?_, ?_, ?_, ?_, ?_⟩
              · intro id hid
                rcases hid with hid | ⟨q, hq, hid⟩
                · rcases List.mem_cons.mp hid with he | hidr
                  · subst he
                    have hself : (s.locals.set 0 (id :: q0))[0]? =
                        some (id :: q0) := get?_set_self _ hw
                    exact ih3 id (Or.inr ⟨id :: q0,
                      by rw [hstate]; exact mem_of_get? hself,
                      List.mem_cons_self _ _⟩)
                  · exact ih3 id (Or.inl (by rw [hstate]; exact hidr))
                · rw [hempty q hq] at hid
                  cases hid
              · intro id hid
                exact ih4 id (by rw [hstate]; exact hid)
              · rw [ih5, hstate]
              · rw [ih6, hstate]
              · rw [ih7, hstate]

/-! ## Promotion of delayed tasks and the full flush -/

theorem le_foldr_max (e : ℤ × ℕ) : ∀ (l : List (ℤ × ℕ)), e ∈ l →
    e.1 ≤ (l.map Prod.fst).foldr max 0
  | [], h => by cases h
  | a :: tl, h => by
      rw [List.map_cons, List.foldr_cons]
      rcases List.mem_cons.mp h with rfl | htl
      · exact le_max_left _ _
      · exact le_trans (le_foldr_max e tl htl) (le_max_right _ _)

theorem promote_all (s : PoolState) :
    promote_due s (max_deadline s) =
      { s with central := s.central ++ s.delayed.map Prod.snd,
               delayed := [] } := by
  have h1 : s.delayed.filter (fun e => decide (e.1 ≤ max_deadline s)) =
      s.delayed :=
    List.filter_eq_self.mpr
      (fun a ha => decide_eq_true (le_foldr_max a s.delayed ha))
  have h2 : s.delayed.filter (fun e => !decide (e.1 ≤ max_deadline s)) =
      [] := by
    rw [List.filter_eq_nil_iff]
    intro a ha
    have hd : decide (a.1 ≤ max_deadline s) = true :=
      decide_eq_true (le_foldr_max a s.delayed ha)
    simp [hd]
  unfold promote_due
  rw [h1, h2]

theorem flush_runs_all (s : PoolState) (hw : 0 < s.locals.length) :
    (∀ id, all_pending s id → id ∈ (flush s).invoked) ∧
    (∀ id, id ∈ s.invoked → id ∈ (flush s).invoked) ∧
    (flush s).halted = s.halted ∧ (flush s).stopped = s.stopped := by
  have hp := promote_all s
  have hw2 : 0 < (promote_due s (max_deadline s)).locals.length := by
    rw [hp]
    exact hw
  obtain ⟨d1, d2, d3, d4, d5, d6, d7⟩ :=
    run_fuel_drains (load (promote_due s (max_deadline s)))
      (promote_due s (max_deadline s)) (Nat.le_refl _) hw2
  unfold flush
  refine ⟨?_, ?_, ?_, ?_⟩
  · intro id hid
    apply d3 id
    unfold all_pending at hid
    rcases hid with hid | ⟨q, hq, hid⟩ | hid
    · exact Or.inl (by rw [hp]; exact List.mem_append_left _ hid)
    · exact Or.inr ⟨q, by rw [hp]; exact hq, hid⟩
    · exact Or.inl (by rw [hp]; exact List.mem_append_right _ hid)
  · intro id hid
    exact d4 id (by rw [hp]; exact hid)
  · rw [d5, hp]
  · rw [d6, hp]

theorem run_fuel_steps : ∀ (fuel : ℕ) (s : PoolState), s.halted = false →
    s.stopped = false → Relation.ReflTransGen Step s (run_fuel fuel s)
  | 0, s, _, _ => .refl
  | k + 1, s, hh, hs => by
      cases hfw : find_work s.locals with
      | some i =>
          have hrun : run_fuel (k + 1) s = run_fuel k (invoke_local s i) := by
            simp only [run_fuel, hfw]
          rw [hrun]
          have hf := invoke_local_frame s i
          exact Relation.ReflTransGen.head (Step.invokeL s i hh hs)
            (run_fuel_steps k (invoke_local s i) (by rw [hf.1, hh])
              (by rw [hf.2, hs]))
      | none =>
          cases hc : s.central with
          | nil =>
              have hrun : run_fuel (k + 1) s = s := by
                simp only [run_fuel, hfw, hc]
              rw [hrun]
          | cons c rest =>
              have hrun : run_fuel (k + 1) s =
                  run_fuel k (drain_central_one s 0) := by
                simp only [run_fuel, hfw, hc]
              rw [hrun]
              have hf := drain_frame s 0
              exact Relation.ReflTransGen.head (Step.drainC s 0 hh hs)
                (run_fuel_steps k (drain_central_one s 0) (by rw [hf.1, hh])
                  (by rw [hf.2, hs]))

theorem flush_steps (s : PoolState) (hh : s.halted = false)
    (hs : s.stopped = false) :
    Relation.ReflTransGen Step s (flush s) := by
  unfold flush
  exact Relation.ReflTransGen.head (Step.promote s (max_deadline s) hs)
    (run_fuel_steps _ (promote_due s (max_deadline s)) hh hs)

/-! ## No execution or discarding happens while the pool is halted -/

theorem step_halted_frame {s s' : PoolState} (hstep : Step s s')
    (hh : s.halted = true) (hs' : s'.stopped = false) :
    s'.invoked = s.invoked ∧ s'.discarded = s.discarded := by
  cases hstep with
  | submitC hs => exact ⟨rfl, rfl⟩
  | submitL i hs =>
      cases hloc : s.locals[i]? with
      | none => rw [submit_local_eq_of_none s i hloc]; exact ⟨rfl, rfl⟩
      | some q =>
          rw [submit_local_eq_of_some s i q hloc]
          exact ⟨rfl, rfl⟩
  | submitD d hs => exact ⟨rfl, rfl⟩
  | invokeL i hh2 hs =>
      rw [hh2] at hh
      cases hh
  | stealI i hh2 hs =>
      rw [hh2] at hh
      cases hh
  | drainC i hh2 hs =>
      rw [hh2] at hh
      cases hh
  | promote now hs => exact ⟨rfl, rfl⟩
  | haltS hs => exact ⟨rfl, rfl⟩
  | resumeS hs => exact ⟨rfl, rfl⟩
  | stop hs =>
      cases hs'

/-! ## Claim theorems: halt and resume -/

/-- C4: `halt()` followed by `resume()` leaves every queued task exactly
where it was; while halted no step of the scheduler invokes or discards
any task (short of destroying the pool); after the resume the worker loop
performs genuine scheduler transitions that invoke every task that was
pending; and a task submitted while halted is accepted into the central
queue and also runs after the next resume. -/
theorem C4_halt_resume_runs_pending (s s' : PoolState) (id : ℕ)
    (hstep : Step (halt s) s') (hs'stop : s'.stopped = false)
    (hpend : all_pending s id) (hw : 0 < s.locals.length)
    (hstop : s.stopped = false) :
    (resume (halt s)).locals = s.locals ∧
    (resume (halt s)).central = s.central ∧
    (resume (halt s)).delayed = s.delayed ∧
    (resume (halt s)).invoked = s.invoked ∧
    (resume (halt s)).discarded = s.discarded ∧
    (resume (halt s)).nextId = s.nextId ∧
    s'.invoked = (halt s).invoked ∧
    s'.discarded = (halt s).discarded ∧
    id ∈ (flush (resume (halt s))).invoked ∧
    Relation.ReflTransGen Step (resume (halt s))
      (flush (resume (halt s))) ∧
    (submit_central (halt s)).central = s.central ++ [s.nextId] ∧
    (submit_central (halt s)).halted = true ∧
    s.nextId ∈ (flush (resume (submit_central (halt s)))).invoked := by
  obtain ⟨hfr1, hfr2⟩ := step_halted_frame hstep rfl hs'stop
  refine ⟨rfl, rfl, rfl, rfl, rfl, rfl, hfr1, hfr2, ?_, ?_, ?_, rfl, ?_⟩
  · exact (flush_runs_all (resume (halt s)) hw).1 id hpend
  · exact flush_steps (resume (halt s)) rfl hstop
  · simp [submit_central, halt]
  · have hsub : all_pending (resume (submit_central (halt s))) s.nextId := by
      unfold all_pending
      exact Or.inl (List.mem_append_right _ (by simp [halt]))
    exact (flush_runs_all (resume (submit_central (halt s))) hw).1
      s.nextId hsub

/-- Witness for C4 on a small pool holding one local task, one central
task and one delayed task, with a central submit as the step taken while
halted. -/
theorem C4_witness :
    (resume (halt witPool)).locals = witPool.locals ∧
    (resume (halt witPool)).central = witPool.central ∧
    (resume (halt witPool)).delayed = witPool.delayed ∧
    (resume (halt witPool)).invoked = witPool.invoked ∧
    (resume (halt witPool)).discarded = witPool.discarded ∧
    (resume (halt witPool)).nextId = witPool.nextId ∧
    (submit_central (halt witPool)).invoked = (halt witPool).invoked ∧
    (submit_central (halt witPool)).discarded = (halt witPool).discarded ∧
    0 ∈ (flush (resume (halt witPool))).invoked ∧
    Relation.ReflTransGen Step (resume (halt witPool))
      (flush (resume (halt witPool))) ∧
    (submit_central (halt witPool)).central =
      witPool.central ++ [witPool.nextId] ∧
    (submit_central (halt witPool)).halted = true ∧
    witPool.nextId ∈
      (flush (resume (submit_central (halt witPool)))).invoked :=
  C4_halt_resume_runs_pending witPool (submit_central (halt witPool)) 0
    (Step.submitC (halt witPool) rfl) rfl
    (Or.inr (Or.inl ⟨[0], by simp [witPool], by simp⟩)) (by decide) rfl

/-! ## Claim theorems: the task lifecycle -/

/-- C1: in every completed execution each submitted task was either
invoked exactly once and not discarded, or discarded at teardown exactly
once without ever being invoked; moreover along any execution no task is
ever invoked twice, and no task is ever both invoked and discarded. -/
theorem C1_task_invoked_exactly_once_or_discarded (s t : PoolState)
    (id id2 : ℕ) (hs : Reach s) (ht : Reach t)
    (hstop : s.stopped = true) (hid : id < s.nextId) :
    ((s.invoked.count id = 1 ∧ s.discarded.count id = 0) ∨
      (s.invoked.count id = 0 ∧ s.discarded.count id = 1)) ∧
    t.invoked.count id2 ≤ 1 ∧
    ¬(1 ≤ t.invoked.count id2 ∧ 1 ≤ t.discarded.count id2) := by
  obtain ⟨h1, h2, h3⟩ := reach_inv hs
  obtain ⟨g1, g2, g3⟩ := reach_inv ht
  have hpend := h3 hstop id
  have hlife := h1 id hid
  unfold lifeCount at hlife
  constructor
  · omega
  · by_cases hid2 : id2 < t.nextId
    · have := g1 id2 hid2
      unfold lifeCount at this
      omega
    · have := g2 id2 (by omega)
      unfold lifeCount at this
      omega

/-- Witness for C1 along an explicit execution: one task is submitted,
drained and invoked; a second task is submitted and then discarded by the
teardown. -/
theorem C1_witness :
    ((traceA5.invoked.count 0 = 1 ∧ traceA5.discarded.count 0 = 0) ∨
      (traceA5.invoked.count 0 = 0 ∧ traceA5.discarded.count 0 = 1)) ∧
    traceA5.invoked.count 1 ≤ 1 ∧
    ¬(1 ≤ traceA5.invoked.count 1 ∧ 1 ≤ traceA5.discarded.count 1) := by
  have r0 : Reach traceA0 := Reach.init 1
  have r1 : Reach traceA1 := r0.step (Step.submitC traceA0 rfl)
  have r2 : Reach traceA2 := r1.step (Step.drainC traceA1 0 rfl rfl)
  have r3 : Reach traceA3 := r2.step (Step.invokeL traceA2 0 rfl rfl)
  have r4 : Reach traceA4 := r3.step (Step.submitC traceA3 rfl)
  have r5 : Reach traceA5 := r4.step (Step.stop traceA4 rfl)
  exact C1_task_invoked_exactly_once_or_discarded traceA5 traceA5 0 1 r5 r5
    rfl (by decide)

/-- Witness for C8 at the empty ring. -/
theorem C8_witness :
    get_worker_capacity = 2 ^ kLog2Modulus - 1 ∧
    RingQueue.empty.size ≤ get_worker_capacity ∧
    (((RingQueue.empty.push 7).isSome = true) ↔
      RingQueue.empty.size < get_worker_capacity) ∧
    RingReach (push_n get_worker_capacity) ∧
    (push_n get_worker_capacity).size = get_worker_capacity :=
  C8_worker_capacity_constant RingQueue.empty 7 RingReach.init

end ThreadPool
